import Mathlib

/-!
Verification development for the bbsim repository (src/main.cpp): a bit-packed
Turing-machine simulator, an odometer-style enumerator over all transition
tables, and a driver that writes one CSV row per simulated machine while
maintaining shared running halting/non-halting counters.
-/

namespace BBSim

/-- Sentinel bound used in the busy-beaver table where the true bound is unknown
(`kOof` in the source). -/
def kOof : ℕ := 10000

/-- The compile-time busy-beaver step-bound table `kBusyBeaverNumbers`,
indexed as `kBusyBeaverNumbers[symbolCount][stateCount]` (7 rows of 8). -/
def kBusyBeaverNumbers : List (List ℕ) := [
  [0, 0, 0, 0, 0, 0, 0, 0],
  [0, 1, kOof, kOof, kOof, kOof, kOof, kOof],
  [0, 1, 6, 21, 107, kOof, kOof, kOof],
  [0, 1, 38, kOof, kOof, kOof, kOof, kOof],
  [0, 1, kOof, kOof, kOof, kOof, kOof, kOof],
  [0, 1, kOof, kOof, kOof, kOof, kOof, kOof],
  [0, 1, kOof, kOof, kOof, kOof, kOof, kOof]]

/-- Lookup `kBusyBeaverNumbers[symbolCount][stateCount]`. -/
def busyBeaverNumber (symbolCount stateCount : ℕ) : ℕ :=
  (kBusyBeaverNumbers.getD symbolCount []).getD stateCount 0

/-- Fuelled recursion computing the bit count of `n` (helper for `bitWidth`). -/
def bitWidthAux : ℕ → ℕ → ℕ
  | 0, _ => 0
  | fuel + 1, n => if n = 0 then 0 else bitWidthAux fuel (n / 2) + 1

/-- Embedding of `std::bit_width`: the number of bits needed to represent `n`. -/
def bitWidth (n : ℕ) : ℕ := bitWidthAux n n

/-- `kHaltState = kStateCount`: state value `N` denotes the halt state. -/
def kHaltState (stateCount : ℕ) : ℕ := stateCount

/-- `kSymbolWidth = std::bit_width(kSymbolCount == 1 ? 1 : kSymbolCount - 1)`. -/
def kSymbolWidth (symbolCount : ℕ) : ℕ :=
  bitWidth (if symbolCount = 1 then 1 else symbolCount - 1)

/-- `kDirectionCount = 2`. -/
def kDirectionCount : ℕ := 2

/-- `kDirectionWidth = std::bit_width(kDirectionCount - 1)`. -/
def kDirectionWidth : ℕ := bitWidth (kDirectionCount - 1)

/-- `kInputs = kStateCount * kSymbolCount` (also `kTransitionCount`). -/
def kInputs (stateCount symbolCount : ℕ) : ℕ := stateCount * symbolCount

/-- `kOutputs = kSymbolCount * kDirectionCount * (kStateCount + 1)`. -/
def kOutputs (stateCount symbolCount : ℕ) : ℕ :=
  symbolCount * kDirectionCount * (stateCount + 1)

/-- Modelled from the spec: the source computes
`kUniqueMachineCount = gcem::round(gcem::pow(kOutputs, kInputs))` against the
external header `gcem.hpp`, which is not among the repository sources; the
count is therefore modelled from the spec clause
`machine_count = output_count ^ input_count`. -/
def kUniqueMachineCount (stateCount symbolCount : ℕ) : ℕ :=
  kOutputs stateCount symbolCount ^ kInputs stateCount symbolCount

/-- `kTapeSize = 2 * kBusyBeaverNumbers[kSymbolCount][kStateCount] + 2`. -/
def kTapeSize (stateCount symbolCount : ℕ) : ℕ :=
  2 * busyBeaverNumber symbolCount stateCount + 2

/-- The step budget of `run`: `stepCount = kBusyBeaverNumbers[kSymbolCount][kStateCount]`. -/
def stepBudget (stateCount symbolCount : ℕ) : ℕ :=
  busyBeaverNumber symbolCount stateCount

/-- State of a `TuringMachine` object: the immutable transition table, the
tape, the current state and the head position (a `size_t`). -/
structure Machine where
  transitions : List ℕ
  tape : List ℕ
  currentState : ℕ
  currentPosition : ℕ

deriving instance DecidableEq, Repr for Machine

/-- One iteration of the loop body of `TuringMachine::run`: read the tape
symbol, pack the input index (the `uint8_t` state is shifted, truncated mod
256, and xor-ed with the symbol), fetch the output, decode direction / written
symbol / next state by masking and shifting, write the tape cell, and move the
head (the `-1` direction offset becomes `2^64 - 1` as a `size_t`, added mod
`2^64`). -/
def stepFn (stateCount symbolCount : ℕ) (m : Machine) : Machine :=
  let inputSymbol := m.tape.getD m.currentPosition 0
  let shifted := (m.currentState <<< kSymbolWidth symbolCount) % 256
  let input := shifted ^^^ inputSymbol
  let fetched := m.transitions.getD input 0
  let positionOffset := if fetched &&& 1 = 0 then 2 ^ 64 - 1 else 1
  let afterDirection := fetched >>> kDirectionWidth
  { transitions := m.transitions
    tape := m.tape.set m.currentPosition (afterDirection &&& 1)
    currentState := afterDirection >>> kSymbolWidth symbolCount
    currentPosition := (m.currentPosition + positionOffset) % 2 ^ 64 }

/-- The loop of `TuringMachine::run`: perform a step, return `stepIndex + 1`
when the new state is the halt state, otherwise continue; return `-1` when the
budget (the remaining `fuel`) is exhausted. -/
def runAux (stateCount symbolCount : ℕ) : ℕ → ℕ → Machine → ℤ
  | 0, _, _ => -1
  | fuel + 1, stepIndex, m =>
    let m1 := stepFn stateCount symbolCount m
    if m1.currentState = kHaltState stateCount then (stepIndex : ℤ) + 1
    else runAux stateCount symbolCount fuel (stepIndex + 1) m1

/-- A freshly constructed machine: given transition table, all-zero tape of
`kTapeSize` cells, state 0, head at `kTapeSize / 2`. -/
def initMachine (stateCount symbolCount : ℕ) (t : List ℕ) : Machine :=
  { transitions := t
    tape := List.replicate (kTapeSize stateCount symbolCount) 0
    currentState := 0
    currentPosition := kTapeSize stateCount symbolCount / 2 }

/-- `TuringMachine::run` on a freshly constructed machine. -/
def run (stateCount symbolCount : ℕ) (t : List ℕ) : ℤ :=
  runAux stateCount symbolCount (stepBudget stateCount symbolCount) 0
    (initMachine stateCount symbolCount t)

/-- The machine reached after `k` iterations of the loop body. -/
def machineAt (stateCount symbolCount : ℕ) (t : List ℕ) (k : ℕ) : Machine :=
  (stepFn stateCount symbolCount)^[k] (initMachine stateCount symbolCount t)

/-- The packed transition-table index computed by an iteration of the loop
body of `run` on machine state `m`. -/
def inputIndex (symbolCount : ℕ) (m : Machine) : ℕ :=
  ((m.currentState <<< kSymbolWidth symbolCount) % 256) ^^^
    m.tape.getD m.currentPosition 0

/-- Design-level decoding of an output, from the spec: bit 0 is the direction. -/
def specDirBit (out : ℕ) : ℕ := out &&& 1

/-- Design-level decoding, from the spec:
`write_sym = (out >> 1) & ((1 << symbol_width) - 1)`. -/
def specWriteSym (symbolCount out : ℕ) : ℕ :=
  (out >>> 1) &&& (2 ^ kSymbolWidth symbolCount - 1)

/-- Design-level decoding, from the spec: `next_state = out >> (1 + symbol_width)`. -/
def specNextState (symbolCount out : ℕ) : ℕ :=
  out >>> (1 + kSymbolWidth symbolCount)

/-- The design-level per-step procedure, from the spec: read the symbol, form
`input = (state << symbol_width) | sym`, fetch `out`, decode with
`specDirBit` / `specWriteSym` / `specNextState`, write the tape cell, move the
head by the offset, and take the next state. -/
def specStep (symbolCount : ℕ) (m : Machine) : Machine :=
  let sym := m.tape.getD m.currentPosition 0
  let input := (m.currentState <<< kSymbolWidth symbolCount) ||| sym
  let out := m.transitions.getD input 0
  { transitions := m.transitions
    tape := m.tape.set m.currentPosition (specWriteSym symbolCount out)
    currentState := specNextState symbolCount out
    currentPosition :=
      if specDirBit out = 1 then m.currentPosition + 1 else m.currentPosition - 1 }

/-- The odometer increment at the end of each `testMachines` iteration: scan
the digits from the low-order end, resetting maxed digits (`== kOutputs - 1`)
to 0 and incrementing the first unmaxed digit (`uint8_t` arithmetic). -/
def incrementTable (base : ℕ) : List ℕ → List ℕ
  | [] => []
  | d :: rest =>
    if d = base - 1 then 0 :: incrementTable base rest
    else (d + 1) % 256 :: rest

/-- Little-endian base-`base` digit expansion of `n`, with `len` digits. -/
def natToDigits (base : ℕ) : ℕ → ℕ → List ℕ
  | 0, _ => []
  | len + 1, n => n % base :: natToDigits base len (n / base)

/-- Value of a little-endian digit list in base `base`. -/
def digitsValue (base : ℕ) : List ℕ → ℕ
  | [] => 0
  | d :: rest => d + base * digitsValue base rest

/-- One CSV data row as written by `testMachines`, together with the stored
bit patterns (values in `[0, 2^32)`) of the shared 32-bit `int` counters
right after this machine was classified. -/
structure Row where
  stateCount : ℕ
  symbolCount : ℕ
  machineId : ℕ
  steps : ℤ
  haltingCount : ℕ
  nonHaltingCount : ℕ

deriving instance DecidableEq, Repr for Row

/-- The loop of `testMachines`: for each remaining machine, construct a fresh
machine from the current transition table, run it, bump the halting or
non-halting counter, emit the row, and advance the odometer. Returns the rows
and the final counter values. The counters are the C++ 32-bit `int`
variables shared across the passes; `++` advances the stored two's-complement
bit pattern mod `2 ^ 32` (signed overflow past `INT_MAX` is undefined
behaviour in C++; the model takes the conventional wraparound of the stored
pattern — see `intView` for the signed value an overflowed counter holds). -/
def passRows (stateCount symbolCount : ℕ) :
    ℕ → ℕ → List ℕ → ℕ → ℕ → List Row × ℕ × ℕ
  | 0, _, _, h, n => ([], h, n)
  | fuel + 1, machineId, table, h, n =>
    let steps := run stateCount symbolCount table
    let h1 := if 0 < steps then (h + 1) % 2 ^ 32 else h
    let n1 := if 0 < steps then n else (n + 1) % 2 ^ 32
    let rest := passRows stateCount symbolCount fuel (machineId + 1)
      (incrementTable (kOutputs stateCount symbolCount) table) h1 n1
    (⟨stateCount, symbolCount, machineId, steps, h1, n1⟩ :: rest.1, rest.2)

/-- `testMachines<kStateCount, kSymbolCount>`: enumerate all
`kUniqueMachineCount` transition tables starting from the all-zero table,
with the given incoming shared counter values. -/
def testMachines (stateCount symbolCount haltingCount nonHaltingCount : ℕ) :
    List Row × ℕ × ℕ :=
  passRows stateCount symbolCount
    (kUniqueMachineCount stateCount symbolCount) 0
    (List.replicate (kInputs stateCount symbolCount) 0)
    haltingCount nonHaltingCount

/-- First pass of `main`: `testMachines<1, 2>` with counters starting at 0. -/
def pass1 : List Row × ℕ × ℕ := testMachines 1 2 0 0

/-- Second pass of `main`: `testMachines<2, 2>` with the shared counters left
by the first pass. -/
def pass2 : List Row × ℕ × ℕ := testMachines 2 2 pass1.2.1 pass1.2.2

/-- Third pass of `main`: `testMachines<3, 2>`. -/
def pass3 : List Row × ℕ × ℕ := testMachines 3 2 pass2.2.1 pass2.2.2

/-- Fourth pass of `main`: `testMachines<4, 2>`; its second component
`pass4.2` holds the final `(haltingCount, nonHaltingCount)` pair that `main`
prints in the summary and divides by for the final halting probability. -/
def pass4 : List Row × ℕ × ℕ := testMachines 4 2 pass3.2.1 pass3.2.2

/-- All data rows the program writes to `machine_results.csv`, in order. -/
def programRows : List Row := pass1.1 ++ (pass2.1 ++ (pass3.1 ++ pass4.1))

/-- Observable outcome of `main` relevant to error handling. -/
structure DriverResult where
  exitCode : ℕ
  wroteDiagnostic : Bool

deriving instance DecidableEq, Repr for DriverResult

/-- Model of the control flow of `main` as a function of whether
`resultsFile.open("machine_results.csv")` succeeded: the source never
inspects the stream state after `open`, prints no diagnostic about the file,
and unconditionally ends with `return 0` (on a failed stream every `<<` is a
silent no-op). -/
def mainResult (openSucceeded : Bool) : DriverResult :=
  { exitCode := 0, wroteDiagnostic := false }

/-- Signed 32-bit two's-complement view of a stored counter bit pattern:
the value the C++ `int` holds. -/
def intView (x : ℕ) : ℤ :=
  if x < 2 ^ 31 then (x : ℤ) else (x : ℤ) - 2 ^ 32

/-! ### Helper lemmas -/

theorem list_getD_le (l : List ℕ) (i c d : ℕ) (hd : d ≤ c)
    (h : ∀ x ∈ l, x ≤ c) : l.getD i d ≤ c := by
  rw [List.getD_eq_get?]
  rcases hg : l.get? i with _ | a
  · simpa using hd
  · simpa using h a (List.get?_mem hg)

theorem busyBeaverNumber_le (s n : ℕ) : busyBeaverNumber s n ≤ kOof := by
  have htab : ∀ l ∈ kBusyBeaverNumbers, ∀ x ∈ l, x ≤ kOof := by decide
  unfold busyBeaverNumber
  refine list_getD_le _ _ _ _ (by omega) ?_
  intro x hx
  rw [List.getD_eq_get?] at hx
  rcases hg : kBusyBeaverNumbers.get? s with _ | l
  · rw [hg] at hx; simp at hx
  · rw [hg] at hx
    exact htab l (List.get?_mem hg) x hx

theorem two_mul_xor_one (s : ℕ) : 2 * s ^^^ 1 = 2 * s + 1 := by
  apply Nat.eq_of_testBit_eq
  intro i
  cases i with
  | zero =>
    have h1 : 2 * s % 2 = 0 := by omega
    have h2 : (2 * s + 1) % 2 = 1 := by omega
    simp [Nat.testBit_xor, Nat.testBit_zero, h1, h2]
  | succ i =>
    have d1 : 2 * s / 2 = s := by omega
    have d2 : (2 * s + 1) / 2 = s := by omega
    have hone : (1 : ℕ) / 2 = 0 := by norm_num
    rw [Nat.testBit_xor]
    simp [Nat.testBit_succ, d1, d2, hone]

theorem two_mul_lor_one (s : ℕ) : 2 * s ||| 1 = 2 * s + 1 := by
  apply Nat.eq_of_testBit_eq
  intro i
  cases i with
  | zero =>
    have h1 : 2 * s % 2 = 0 := by omega
    have h2 : (2 * s + 1) % 2 = 1 := by omega
    simp [Nat.testBit_or, Nat.testBit_zero, h1, h2]
  | succ i =>
    have d1 : 2 * s / 2 = s := by omega
    have d2 : (2 * s + 1) / 2 = s := by omega
    have hone : (1 : ℕ) / 2 = 0 := by norm_num
    rw [Nat.testBit_or]
    simp [Nat.testBit_succ, d1, d2, hone]

theorem two_mul_xor (s b : ℕ) (hb : b ≤ 1) : 2 * s ^^^ b = 2 * s + b := by
  interval_cases b
  · simp
  · exact two_mul_xor_one s

theorem two_mul_lor (s b : ℕ) (hb : b ≤ 1) : 2 * s ||| b = 2 * s + b := by
  interval_cases b
  · simp
  · exact two_mul_lor_one s

theorem shiftLeft_one (s : ℕ) : s <<< 1 = 2 * s := by
  rw [Nat.shiftLeft_eq]
  ring

theorem symbolWidth_two : kSymbolWidth 2 = 1 := by decide

theorem directionWidth_one : kDirectionWidth = 1 := by decide

theorem kOutputs_two (N : ℕ) : kOutputs N 2 = 4 * (N + 1) := by
  simp [kOutputs, kDirectionCount]

theorem kInputs_two (N : ℕ) : kInputs N 2 = 2 * N := by
  simp [kInputs]
  ring

/-! ### The run loop: first-halt characterisation -/

theorem runAux_spec (N S : ℕ) :
    ∀ (fuel i : ℕ) (m : Machine),
      ((∀ j, 1 ≤ j → j ≤ fuel →
          ((stepFn N S)^[j] m).currentState ≠ kHaltState N) ∧
        runAux N S fuel i m = -1) ∨
      (∃ k, 1 ≤ k ∧ k ≤ fuel ∧
        ((stepFn N S)^[k] m).currentState = kHaltState N ∧
        (∀ j, 1 ≤ j → j < k →
          ((stepFn N S)^[j] m).currentState ≠ kHaltState N) ∧
        runAux N S fuel i m = (i : ℤ) + k) := by
  intro fuel
  induction fuel with
  | zero =>
    intro i m
    left
    exact ⟨fun j hj1 hj0 => absurd (le_trans hj1 hj0) (by omega), rfl⟩
  | succ fuel ih =>
    intro i m
    by_cases hh : (stepFn N S m).currentState = kHaltState N
    · right
      refine ⟨1, le_refl 1, by omega, by simpa using hh, ?_, ?_⟩
      · intro j hj1 hj
        omega
      · simp [runAux, hh]
    · rcases ih (i + 1) (stepFn N S m) with ⟨hall, hrun⟩ | ⟨k, hk1, hkf, hhalt, hmin, hrun⟩
      · left
        constructor
        · intro j hj1 hjf
          cases j with
          | zero => omega
          | succ j0 =>
            rw [Function.iterate_succ_apply]
            rcases Nat.eq_zero_or_pos j0 with h0 | hpos
            · subst h0; simpa using hh
            · exact hall j0 hpos (by omega)
        · have hstep : runAux N S (fuel + 1) i m =
              runAux N S fuel (i + 1) (stepFn N S m) := by
            simp [runAux, hh]
          rw [hstep, hrun]
      · right
        refine ⟨k + 1, by omega, by omega, ?_, ?_, ?_⟩
        · rw [Function.iterate_succ_apply]
          exact hhalt
        · intro j hj1 hjk
          cases j with
          | zero => omega
          | succ j0 =>
            rw [Function.iterate_succ_apply]
            rcases Nat.eq_zero_or_pos j0 with h0 | hpos
            · subst h0; simpa using hh
            · exact hmin j0 hpos (by omega)
        · have hstep : runAux N S (fuel + 1) i m =
              runAux N S fuel (i + 1) (stepFn N S m) := by
            simp [runAux, hh]
          rw [hstep, hrun]
          push_cast
          ring

/-- C1: for every transition table with entries in `[0, kOutputs)`, `run` on a
freshly constructed machine returns `-1` or some `k` with
`1 ≤ k ≤ stepBudget`; it returns `k` exactly when the machine first enters the
halt state `N` on its `k`-th step with `k` within the budget, and returns `-1`
exactly when it has not entered state `N` after `stepBudget` steps. -/
theorem run_contract (N S : ℕ) (t : List ℕ) (hN : 1 ≤ N)
    (ht : ∀ x ∈ t, x < kOutputs N S) :
    (run N S t = -1 ∨
      (1 ≤ run N S t ∧ run N S t ≤ (stepBudget N S : ℤ))) ∧
    (∀ k : ℕ, 1 ≤ k → k ≤ stepBudget N S →
      (run N S t = (k : ℤ) ↔
        ((machineAt N S t k).currentState = kHaltState N ∧
          ∀ j, j < k → (machineAt N S t j).currentState ≠ kHaltState N))) ∧
    (run N S t = -1 ↔
      ∀ k, k ≤ stepBudget N S →
        (machineAt N S t k).currentState ≠ kHaltState N) := by
  have hinit : (machineAt N S t 0).currentState = 0 := rfl
  have hrun0 : run N S t =
      runAux N S (stepBudget N S) 0 (initMachine N S t) := rfl
  have hm : ∀ k, machineAt N S t k = (stepFn N S)^[k] (initMachine N S t) :=
    fun k => rfl
  have hne0 : (0 : ℕ) ≠ kHaltState N := by
    simp [kHaltState]
    omega
  rcases runAux_spec N S (stepBudget N S) 0 (initMachine N S t) with
    ⟨hall, hrun⟩ | ⟨k0, hk1, hkf, hhalt, hmin, hrun⟩
  · rw [← hrun0] at hrun
    refine ⟨Or.inl hrun, ?_, ?_⟩
    · intro k hk1 hkb
      constructor
      · intro hk
        rw [hrun] at hk
        exfalso
        omega
      · rintro ⟨hhk, -⟩
        exact absurd hhk (by rw [hm]; exact hall k hk1 hkb)
    · constructor
      · intro _ k hkb
        rcases Nat.eq_zero_or_pos k with h0 | hpos
        · subst h0
          rw [hinit]
          exact hne0
        · rw [hm]
          exact hall k hpos hkb
      · intro _
        exact hrun
  · rw [← hrun0] at hrun
    have hrunk : run N S t = (k0 : ℤ) := by rw [hrun]; ring
    refine ⟨Or.inr ⟨by rw [hrunk]; exact_mod_cast hk1,
      by rw [hrunk]; exact_mod_cast hkf⟩, ?_, ?_⟩
    · intro k hk1' hkb
      constructor
      · intro hk
        have hkk : k = k0 := by
          rw [hrunk] at hk
          exact_mod_cast hk.symm
        subst hkk
        refine ⟨by rw [hm]; exact hhalt, ?_⟩
        intro j hj
        rcases Nat.eq_zero_or_pos j with h0 | hpos
        · subst h0
          rw [hinit]
          exact hne0
        · rw [hm]
          exact hmin j hpos hj
      · rintro ⟨hhk, hmink⟩
        have hkk : k = k0 := by
          rcases lt_trichotomy k k0 with hlt | heq | hgt
          · exact absurd hhk (by rw [hm]; exact hmin k hk1' hlt)
          · exact heq
          · exact absurd (by rw [hm]; exact hhalt : 
              (machineAt N S t k0).currentState = kHaltState N) (hmink k0 hgt)
        subst hkk
        exact hrunk
    · constructor
      · intro hm1
        rw [hrunk] at hm1
        exfalso
        omega
      · intro hallk
        exact absurd (by rw [hm]; exact hhalt :
          (machineAt N S t k0).currentState = kHaltState N) (hallk k0 hkf)

/-- Witness for `run_contract` at the 2-state busy-beaver champion table. -/
theorem run_contract_w :
    run 2 2 [7, 6, 2, 11] = -1 ∨
      (1 ≤ run 2 2 [7, 6, 2, 11] ∧
        run 2 2 [7, 6, 2, 11] ≤ (stepBudget 2 2 : ℤ)) :=
  (run_contract 2 2 [7, 6, 2, 11] (by decide) (by decide)).1

/-! ### Safety invariants of the run loop (S = 2) -/

theorem stepInvariant (N : ℕ) (t : List ℕ) (hN : 1 ≤ N)
    (ht : ∀ x ∈ t, x < kOutputs N 2) :
    ∀ k,
      (machineAt N 2 t k).transitions = t ∧
      (machineAt N 2 t k).tape.length = kTapeSize N 2 ∧
      (∀ c ∈ (machineAt N 2 t k).tape, c ≤ 1) ∧
      (machineAt N 2 t k).currentState ≤ N ∧
      (k ≤ stepBudget N 2 →
        stepBudget N 2 + 1 ≤ (machineAt N 2 t k).currentPosition + k ∧
        (machineAt N 2 t k).currentPosition ≤ stepBudget N 2 + 1 + k) := by
  have hB : stepBudget N 2 ≤ 10000 := busyBeaverNumber_le 2 N
  have hTS : kTapeSize N 2 = 2 * stepBudget N 2 + 2 := rfl
  intro k
  induction k with
  | zero =>
    refine ⟨rfl, by simp [machineAt, initMachine], ?_, ?_, ?_⟩
    · intro c hc
      have := List.eq_of_mem_replicate hc
      omega
    · exact Nat.zero_le N
    · intro _
      have hpos : (machineAt N 2 t 0).currentPosition = stepBudget N 2 + 1 := by
        show kTapeSize N 2 / 2 = stepBudget N 2 + 1
        omega
      omega
  | succ k ih =>
    obtain ⟨iht, ihlen, ihcell, ihstate, ihpos⟩ := ih
    have hstep : machineAt N 2 t (k + 1) = stepFn N 2 (machineAt N 2 t k) :=
      Function.iterate_succ_apply' _ _ _
    set m := machineAt N 2 t k with hmdef
    have hout : ∀ idx, m.transitions.getD idx 0 < kOutputs N 2 := by
      intro idx
      rw [iht, List.getD_eq_get?]
      rcases hg : t.get? idx with _ | a
      · simp only [Option.getD_none, kOutputs_two]
        omega
      · simpa using ht a (List.get?_mem hg)
    refine ⟨?_, ?_, ?_, ?_, ?_⟩
    · rw [hstep]
      exact iht
    · rw [hstep]
      show (m.tape.set _ _).length = _
      rw [List.length_set]
      exact ihlen
    · rw [hstep]
      intro c hc
      rcases List.mem_or_eq_of_mem_set hc with hold | hnew
      · exact ihcell c hold
      · rw [hnew, Nat.and_one_is_mod]
        omega
    · rw [hstep]
      show (_ >>> kDirectionWidth) >>> kSymbolWidth 2 ≤ N
      rw [directionWidth_one, symbolWidth_two, Nat.shiftRight_eq_div_pow,
        Nat.shiftRight_eq_div_pow, pow_one]
      have h1 := hout (((m.currentState <<< 1) % 256) ^^^
        m.tape.getD m.currentPosition 0)
      rw [kOutputs_two] at h1
      omega
    · intro hk1
      have hkb : k ≤ stepBudget N 2 := by omega
      obtain ⟨hlow, hhigh⟩ := ihpos hkb
      have hpge : 1 ≤ m.currentPosition := by omega
      have hple : m.currentPosition ≤ 2 * stepBudget N 2 + 1 := by omega
      rw [hstep]
      show stepBudget N 2 + 1 ≤ (m.currentPosition + _) % 2 ^ 64 + (k + 1) ∧
        (m.currentPosition + _) % 2 ^ 64 ≤ stepBudget N 2 + 1 + (k + 1)
      by_cases hd : m.transitions.getD
          (((m.currentState <<< kSymbolWidth 2) % 256) ^^^ m.tape.getD m.currentPosition 0) 0 &&& 1 = 0
      · rw [if_pos hd]
        have hmod : (m.currentPosition + (2 ^ 64 - 1)) % 2 ^ 64 =
            m.currentPosition - 1 := by
          have hrw : m.currentPosition + (2 ^ 64 - 1) =
              (m.currentPosition - 1) + 1 * 2 ^ 64 := by omega
          rw [hrw, Nat.add_mul_mod_self_right]
          exact Nat.mod_eq_of_lt (by omega)
        rw [hmod]
        omega
      · rw [if_neg hd]
        have hmod : (m.currentPosition + 1) % 2 ^ 64 = m.currentPosition + 1 :=
          Nat.mod_eq_of_lt (by omega)
        rw [hmod]
        omega

/-- C6: for every transition table with entries in `[0, kOutputs)` (taking
`S = 2` as instantiated by the program, with `N` below the `uint8_t` overflow
threshold), throughout `run` the head position stays inside `[0, kTapeSize)`,
and at every iteration that actually executes (budget not yet exhausted, halt
state not yet reached) the packed input index is below `kInputs`, so every tape
access and every transition-table access is in bounds. -/
theorem run_safety (N : ℕ) (t : List ℕ) (hN : 1 ≤ N) (hNle : N ≤ 128)
    (ht : ∀ x ∈ t, x < kOutputs N 2) :
    ∀ k, k ≤ stepBudget N 2 →
      (machineAt N 2 t k).currentPosition < kTapeSize N 2 ∧
      ((∀ j, j ≤ k → (machineAt N 2 t j).currentState ≠ kHaltState N) →
        k < stepBudget N 2 →
        inputIndex 2 (machineAt N 2 t k) < kInputs N 2) := by
  intro k hk
  obtain ⟨htr, hlen, hcell, hstate, hpos⟩ := stepInvariant N t hN ht k
  obtain ⟨hlow, hhigh⟩ := hpos hk
  have hTS : kTapeSize N 2 = 2 * stepBudget N 2 + 2 := rfl
  constructor
  · omega
  · intro hnh _
    have hlt : (machineAt N 2 t k).currentState < N := by
      have := hnh k (le_refl k)
      simp [kHaltState] at this
      omega
    have hsym : (machineAt N 2 t k).tape.getD (machineAt N 2 t k).currentPosition 0 ≤ 1 :=
      list_getD_le _ _ _ _ (by omega) hcell
    show ((((machineAt N 2 t k).currentState <<< kSymbolWidth 2) % 256) ^^^
      (machineAt N 2 t k).tape.getD (machineAt N 2 t k).currentPosition 0) < kInputs N 2
    rw [symbolWidth_two, shiftLeft_one]
    have hsmall : 2 * (machineAt N 2 t k).currentState % 256 =
        2 * (machineAt N 2 t k).currentState := Nat.mod_eq_of_lt (by omega)
    rw [hsmall, two_mul_xor _ _ hsym, kInputs_two]
    omega

/-- Witness for `run_safety` at the champion table, `k = 3`. -/
theorem run_safety_w :
    (machineAt 2 2 [7, 6, 2, 11] 3).currentPosition < kTapeSize 2 2 ∧
      ((∀ j, j ≤ 3 → (machineAt 2 2 [7, 6, 2, 11] j).currentState ≠ kHaltState 2) →
        3 < stepBudget 2 2 →
        inputIndex 2 (machineAt 2 2 [7, 6, 2, 11] 3) < kInputs 2 2) :=
  run_safety 2 [7, 6, 2, 11] (by decide) (by decide) (by decide) 3 (by decide)

/-! ### Refinement of the loop body against the design-level step (S = 2) -/

/-- C2: for `S = 2`, one iteration of the simulator loop — mask the low bit
for the direction, shift right by the direction width, mask one bit for the
written symbol, shift right by the symbol width for the next state — computes
exactly the design-level step (`specStep`, built from `specDirBit`,
`specWriteSym`, `specNextState`), with the same halting condition
`state = N`. The hypotheses express that the `uint8_t` state does not
truncate, the tape symbol is binary, and the `size_t` head arithmetic does
not wrap. -/
theorem step_refines_design (N : ℕ) (m : Machine)
    (hstate : m.currentState < 128)
    (hsym : m.tape.getD m.currentPosition 0 ≤ 1)
    (hpos1 : 1 ≤ m.currentPosition)
    (hpos2 : m.currentPosition + 1 < 2 ^ 64) :
    stepFn N 2 m = specStep 2 m ∧
    ((stepFn N 2 m).currentState = kHaltState N ↔
      (specStep 2 m).currentState = kHaltState N) := by
  have hinput : ((m.currentState <<< kSymbolWidth 2) % 256) ^^^
      m.tape.getD m.currentPosition 0 =
      (m.currentState <<< kSymbolWidth 2) ||| m.tape.getD m.currentPosition 0 := by
    rw [symbolWidth_two, shiftLeft_one]
    have hmod : 2 * m.currentState % 256 = 2 * m.currentState :=
      Nat.mod_eq_of_lt (by omega)
    rw [hmod, two_mul_xor _ _ hsym, two_mul_lor _ _ hsym]
  have hmain : stepFn N 2 m = specStep 2 m := by
    simp only [stepFn, specStep, specWriteSym, specNextState, specDirBit]
    rw [hinput]
    simp only [Machine.mk.injEq]
    refine ⟨trivial, ?_, ?_, ?_⟩
    · rw [directionWidth_one, symbolWidth_two]
      norm_num
    · rw [directionWidth_one, symbolWidth_two, ← Nat.shiftRight_add]
    · simp only [Nat.and_one_is_mod]
      rcases Nat.mod_two_eq_zero_or_one
          (m.transitions.getD
            ((m.currentState <<< kSymbolWidth 2) ||| m.tape.getD m.currentPosition 0) 0)
          with h0 | h1
      · rw [if_pos h0, if_neg (by omega)]
        have hrw : m.currentPosition + (2 ^ 64 - 1) =
            (m.currentPosition - 1) + 1 * 2 ^ 64 := by omega
        rw [hrw, Nat.add_mul_mod_self_right]
        exact Nat.mod_eq_of_lt (by omega)
      · rw [if_neg (by omega), if_pos h1]
        exact Nat.mod_eq_of_lt (by omega)
  exact ⟨hmain, by rw [hmain]⟩

/-- Witness for `step_refines_design` on a freshly constructed champion machine. -/
theorem step_refines_design_w :
    stepFn 2 2 (initMachine 2 2 [7, 6, 2, 11]) =
      specStep 2 (initMachine 2 2 [7, 6, 2, 11]) ∧
    ((stepFn 2 2 (initMachine 2 2 [7, 6, 2, 11])).currentState = kHaltState 2 ↔
      (specStep 2 (initMachine 2 2 [7, 6, 2, 11])).currentState = kHaltState 2) :=
  step_refines_design 2 (initMachine 2 2 [7, 6, 2, 11])
    (by decide) (by decide) (by decide) (by decide)

/-! ### Odometer enumeration -/

theorem natToDigits_zero (base : ℕ) :
    ∀ len, natToDigits base len 0 = List.replicate len 0 := by
  intro len
  induction len with
  | zero => rfl
  | succ len ih =>
    simp only [natToDigits, Nat.zero_mod, Nat.zero_div, ih, List.replicate]

theorem incrementTable_natToDigits (base : ℕ) (h2 : 2 ≤ base) (h256 : base ≤ 256) :
    ∀ len n, n + 1 < base ^ len →
      incrementTable base (natToDigits base len n) = natToDigits base len (n + 1) := by
  intro len
  induction len with
  | zero =>
    intro n hn
    simp [pow_zero] at hn
  | succ len ih =>
    intro n hn
    have hbpos : 0 < base := by omega
    have hd := Nat.div_add_mod n base
    by_cases hm : n % base = base - 1
    · have hrep : n + 1 = base * (n / base + 1) := by
        rw [Nat.mul_add, Nat.mul_one]
        omega
      have hmod1 : (n + 1) % base = 0 := by
        rw [hrep]
        exact Nat.mul_mod_right base _
      have hdiv1 : (n + 1) / base = n / base + 1 := by
        rw [hrep]
        exact Nat.mul_div_cancel_left _ hbpos
      have hq : n / base + 1 < base ^ len := by
        have hlt : base * (n / base + 1) < base * base ^ len := by
          rw [← hrep]
          calc n + 1 < base ^ (len + 1) := hn
            _ = base * base ^ len := by rw [pow_succ, Nat.mul_comm]
        exact Nat.lt_of_mul_lt_mul_left hlt
      simp only [natToDigits, incrementTable, if_pos hm, hmod1, hdiv1]
      rw [ih (n / base) hq]
    · have hmlt : n % base < base := Nat.mod_lt n hbpos
      have hrep : n + 1 = base * (n / base) + (n % base + 1) := by omega
      have hmod1 : (n + 1) % base = n % base + 1 := by
        rw [hrep, Nat.mul_add_mod]
        exact Nat.mod_eq_of_lt (by omega)
      have hdiv1 : (n + 1) / base = n / base := by
        rw [hrep, Nat.mul_add_div hbpos,
          Nat.div_eq_of_lt (show n % base + 1 < base by omega)]
        omega
      have hsmall : (n % base + 1) % 256 = n % base + 1 :=
        Nat.mod_eq_of_lt (by omega)
      simp only [natToDigits, incrementTable, if_neg hm, hmod1, hdiv1, hsmall]

theorem digitsValue_natToDigits (base : ℕ) (h2 : 2 ≤ base) :
    ∀ len n, n < base ^ len →
      digitsValue base (natToDigits base len n) = n := by
  intro len
  induction len with
  | zero =>
    intro n hn
    simp [pow_zero] at hn
    simp [hn, natToDigits, digitsValue]
  | succ len ih =>
    intro n hn
    have hbpos : 0 < base := by omega
    have hq : n / base < base ^ len := by
      rw [Nat.div_lt_iff_lt_mul hbpos]
      calc n < base ^ (len + 1) := hn
        _ = base ^ len * base := by rw [pow_succ]
    simp only [natToDigits, digitsValue, ih (n / base) hq]
    exact Nat.mod_add_div n base

theorem iterate_incrementTable (base len : ℕ) (h2 : 2 ≤ base) (h256 : base ≤ 256) :
    ∀ i, i < base ^ len →
      (incrementTable base)^[i] (List.replicate len 0) = natToDigits base len i := by
  intro i
  induction i with
  | zero =>
    intro _
    rw [Function.iterate_zero_apply, natToDigits_zero]
  | succ i ih =>
    intro hi
    rw [Function.iterate_succ_apply', ih (by omega),
      incrementTable_natToDigits base h2 h256 len i hi]

/-! ### The enumerator loop -/

theorem passRows_length (N S : ℕ) :
    ∀ fuel machineId t h n,
      (passRows N S fuel machineId t h n).1.length = fuel := by
  intro fuel
  induction fuel with
  | zero =>
    intro machineId t h n
    rfl
  | succ fuel ih =>
    intro machineId t h n
    simp only [passRows, List.length_cons, ih]

theorem passRows_succ_halt_fst (N S fuel machineId : ℕ) (t : List ℕ) (h n : ℕ)
    (hs : 0 < run N S t) :
    (passRows N S (fuel + 1) machineId t h n).1 =
      ⟨N, S, machineId, run N S t, (h + 1) % 2 ^ 32, n⟩ ::
        (passRows N S fuel (machineId + 1)
          (incrementTable (kOutputs N S) t) ((h + 1) % 2 ^ 32) n).1 := by
  simp only [passRows, if_pos hs]

theorem passRows_succ_halt_snd (N S fuel machineId : ℕ) (t : List ℕ) (h n : ℕ)
    (hs : 0 < run N S t) :
    (passRows N S (fuel + 1) machineId t h n).2 =
      (passRows N S fuel (machineId + 1)
        (incrementTable (kOutputs N S) t) ((h + 1) % 2 ^ 32) n).2 := by
  simp only [passRows, if_pos hs]

theorem passRows_succ_nonhalt_fst (N S fuel machineId : ℕ) (t : List ℕ) (h n : ℕ)
    (hs : ¬ 0 < run N S t) :
    (passRows N S (fuel + 1) machineId t h n).1 =
      ⟨N, S, machineId, run N S t, h, (n + 1) % 2 ^ 32⟩ ::
        (passRows N S fuel (machineId + 1)
          (incrementTable (kOutputs N S) t) h ((n + 1) % 2 ^ 32)).1 := by
  simp only [passRows, if_neg hs]

theorem passRows_succ_nonhalt_snd (N S fuel machineId : ℕ) (t : List ℕ) (h n : ℕ)
    (hs : ¬ 0 < run N S t) :
    (passRows N S (fuel + 1) machineId t h n).2 =
      (passRows N S fuel (machineId + 1)
        (incrementTable (kOutputs N S) t) h ((n + 1) % 2 ^ 32)).2 := by
  simp only [passRows, if_neg hs]

theorem passRows_get_id (N S : ℕ) :
    ∀ fuel machineId t h n i r,
      (passRows N S fuel machineId t h n).1.get? i = some r →
      r.stateCount = N ∧ r.symbolCount = S ∧ r.machineId = machineId + i ∧
      r.steps = run N S ((incrementTable (kOutputs N S))^[i] t) := by
  intro fuel
  induction fuel with
  | zero =>
    intro machineId t h n i r hget
    simp [passRows] at hget
  | succ fuel ih =>
    intro machineId t h n i r hget
    by_cases hs : 0 < run N S t
    · rw [passRows_succ_halt_fst N S fuel machineId t h n hs] at hget
      cases i with
      | zero =>
        simp only [List.get?_cons_zero, Option.some.injEq] at hget
        subst hget
        refine ⟨rfl, rfl, ?_, rfl⟩
        show machineId = machineId + 0
        omega
      | succ i =>
        simp only [List.get?_cons_succ] at hget
        obtain ⟨h1, h2, h3, h4⟩ := ih _ _ _ _ i r hget
        rw [← Function.iterate_succ_apply] at h4
        exact ⟨h1, h2, by omega, h4⟩
    · rw [passRows_succ_nonhalt_fst N S fuel machineId t h n hs] at hget
      cases i with
      | zero =>
        simp only [List.get?_cons_zero, Option.some.injEq] at hget
        subst hget
        refine ⟨rfl, rfl, ?_, rfl⟩
        show machineId = machineId + 0
        omega
      | succ i =>
        simp only [List.get?_cons_succ] at hget
        obtain ⟨h1, h2, h3, h4⟩ := ih _ _ _ _ i r hget
        rw [← Function.iterate_succ_apply] at h4
        exact ⟨h1, h2, by omega, h4⟩

theorem passRows_get_sum (N S : ℕ) :
    ∀ fuel machineId t h n i r,
      (passRows N S fuel machineId t h n).1.get? i = some r →
      h + n + i + 1 < 2 ^ 32 →
      r.haltingCount + r.nonHaltingCount = h + n + i + 1 ∧
      h ≤ r.haltingCount ∧ n ≤ r.nonHaltingCount := by
  intro fuel
  induction fuel with
  | zero =>
    intro machineId t h n i r hget _
    simp [passRows] at hget
  | succ fuel ih =>
    intro machineId t h n i r hget hroom
    by_cases hs : 0 < run N S t
    · rw [passRows_succ_halt_fst N S fuel machineId t h n hs] at hget
      have hmod : (h + 1) % 2 ^ 32 = h + 1 := by omega
      rw [hmod] at hget
      cases i with
      | zero =>
        simp only [List.get?_cons_zero, Option.some.injEq] at hget
        subst hget
        refine ⟨?_, ?_, ?_⟩
        · show h + 1 + n = h + n + 0 + 1
          omega
        · show h ≤ h + 1
          omega
        · show n ≤ n
          omega
      | succ i =>
        simp only [List.get?_cons_succ] at hget
        obtain ⟨h5, h6, h7⟩ := ih _ _ (h + 1) n i r hget (by omega)
        exact ⟨by omega, by omega, by omega⟩
    · rw [passRows_succ_nonhalt_fst N S fuel machineId t h n hs] at hget
      have hmod : (n + 1) % 2 ^ 32 = n + 1 := by omega
      rw [hmod] at hget
      cases i with
      | zero =>
        simp only [List.get?_cons_zero, Option.some.injEq] at hget
        subst hget
        refine ⟨?_, ?_, ?_⟩
        · show h + (n + 1) = h + n + 0 + 1
          omega
        · show h ≤ h
          omega
        · show n ≤ n + 1
          omega
      | succ i =>
        simp only [List.get?_cons_succ] at hget
        obtain ⟨h5, h6, h7⟩ := ih _ _ h (n + 1) i r hget (by omega)
        exact ⟨by omega, by omega, by omega⟩

theorem passRows_get_mod (N S : ℕ) :
    ∀ fuel machineId t h n i r,
      (passRows N S fuel machineId t h n).1.get? i = some r →
      h < 2 ^ 32 → n < 2 ^ 32 →
      r.haltingCount < 2 ^ 32 ∧ r.nonHaltingCount < 2 ^ 32 ∧
      (r.haltingCount + r.nonHaltingCount) % 2 ^ 32 = (h + n + i + 1) % 2 ^ 32 := by
  intro fuel
  induction fuel with
  | zero =>
    intro machineId t h n i r hget _ _
    simp [passRows] at hget
  | succ fuel ih =>
    intro machineId t h n i r hget hh hn
    by_cases hs : 0 < run N S t
    · rw [passRows_succ_halt_fst N S fuel machineId t h n hs] at hget
      cases i with
      | zero =>
        simp only [List.get?_cons_zero, Option.some.injEq] at hget
        subst hget
        refine ⟨?_, ?_, ?_⟩
        · show (h + 1) % 2 ^ 32 < 2 ^ 32
          omega
        · show n < 2 ^ 32
          omega
        · show ((h + 1) % 2 ^ 32 + n) % 2 ^ 32 = (h + n + 0 + 1) % 2 ^ 32
          omega
      | succ i =>
        simp only [List.get?_cons_succ] at hget
        obtain ⟨h5, h6, h7⟩ := ih _ _ ((h + 1) % 2 ^ 32) n i r hget (by omega) hn
        refine ⟨h5, h6, ?_⟩
        rw [h7]
        omega
    · rw [passRows_succ_nonhalt_fst N S fuel machineId t h n hs] at hget
      cases i with
      | zero =>
        simp only [List.get?_cons_zero, Option.some.injEq] at hget
        subst hget
        refine ⟨?_, ?_, ?_⟩
        · show h < 2 ^ 32
          omega
        · show (n + 1) % 2 ^ 32 < 2 ^ 32
          omega
        · show (h + (n + 1) % 2 ^ 32) % 2 ^ 32 = (h + n + 0 + 1) % 2 ^ 32
          omega
      | succ i =>
        simp only [List.get?_cons_succ] at hget
        obtain ⟨h5, h6, h7⟩ := ih _ _ h ((n + 1) % 2 ^ 32) i r hget hh (by omega)
        refine ⟨h5, h6, ?_⟩
        rw [h7]
        omega

theorem passRows_final (N S : ℕ) :
    ∀ fuel machineId t h n, h + n + fuel < 2 ^ 32 →
      (passRows N S fuel machineId t h n).2.1 +
        (passRows N S fuel machineId t h n).2.2 = h + n + fuel ∧
      h ≤ (passRows N S fuel machineId t h n).2.1 ∧
      n ≤ (passRows N S fuel machineId t h n).2.2 := by
  intro fuel
  induction fuel with
  | zero =>
    intro machineId t h n _
    simp only [passRows]
    omega
  | succ fuel ih =>
    intro machineId t h n hroom
    by_cases hs : 0 < run N S t
    · rw [passRows_succ_halt_snd N S fuel machineId t h n hs]
      have hmod : (h + 1) % 2 ^ 32 = h + 1 := by omega
      rw [hmod]
      obtain ⟨ha, hb, hc⟩ := ih (machineId + 1)
        (incrementTable (kOutputs N S) t) (h + 1) n (by omega)
      exact ⟨by omega, by omega, by omega⟩
    · rw [passRows_succ_nonhalt_snd N S fuel machineId t h n hs]
      have hmod : (n + 1) % 2 ^ 32 = n + 1 := by omega
      rw [hmod]
      obtain ⟨ha, hb, hc⟩ := ih (machineId + 1)
        (incrementTable (kOutputs N S) t) h (n + 1) (by omega)
      exact ⟨by omega, by omega, by omega⟩

theorem passRows_halt_le_final (N S : ℕ) :
    ∀ fuel machineId t h n i r,
      (passRows N S fuel machineId t h n).1.get? i = some r →
      h + n + fuel < 2 ^ 32 →
      r.haltingCount ≤ (passRows N S fuel machineId t h n).2.1 := by
  intro fuel
  induction fuel with
  | zero =>
    intro machineId t h n i r hget _
    simp [passRows] at hget
  | succ fuel ih =>
    intro machineId t h n i r hget hroom
    by_cases hs : 0 < run N S t
    · rw [passRows_succ_halt_fst N S fuel machineId t h n hs] at hget
      rw [passRows_succ_halt_snd N S fuel machineId t h n hs]
      have hmod : (h + 1) % 2 ^ 32 = h + 1 := by omega
      rw [hmod] at hget ⊢
      cases i with
      | zero =>
        simp only [List.get?_cons_zero, Option.some.injEq] at hget
        subst hget
        show h + 1 ≤ (passRows N S fuel (machineId + 1)
          (incrementTable (kOutputs N S) t) (h + 1) n).2.1
        exact (passRows_final N S fuel (machineId + 1)
          (incrementTable (kOutputs N S) t) (h + 1) n (by omega)).2.1
      | succ i =>
        simp only [List.get?_cons_succ] at hget
        exact ih _ _ (h + 1) n i r hget (by omega)
    · rw [passRows_succ_nonhalt_fst N S fuel machineId t h n hs] at hget
      rw [passRows_succ_nonhalt_snd N S fuel machineId t h n hs]
      have hmod : (n + 1) % 2 ^ 32 = n + 1 := by omega
      rw [hmod] at hget ⊢
      cases i with
      | zero =>
        simp only [List.get?_cons_zero, Option.some.injEq] at hget
        subst hget
        show h ≤ (passRows N S fuel (machineId + 1)
          (incrementTable (kOutputs N S) t) h (n + 1)).2.1
        exact (passRows_final N S fuel (machineId + 1)
          (incrementTable (kOutputs N S) t) h (n + 1) (by omega)).2.1
      | succ i =>
        simp only [List.get?_cons_succ] at hget
        exact ih _ _ h (n + 1) i r hget (by omega)

theorem passRows_halt_mono (N S : ℕ) :
    ∀ fuel machineId t h n i j r s, i ≤ j →
      (passRows N S fuel machineId t h n).1.get? i = some r →
      (passRows N S fuel machineId t h n).1.get? j = some s →
      h + n + j + 1 < 2 ^ 32 →
      r.haltingCount ≤ s.haltingCount := by
  intro fuel
  induction fuel with
  | zero =>
    intro machineId t h n i j r s hij hi hj _
    simp [passRows] at hi
  | succ fuel ih =>
    intro machineId t h n i j r s hij hi hj hroom
    by_cases hs : 0 < run N S t
    · rw [passRows_succ_halt_fst N S fuel machineId t h n hs] at hi hj
      have hmod : (h + 1) % 2 ^ 32 = h + 1 := by omega
      rw [hmod] at hi hj
      cases i with
      | zero =>
        simp only [List.get?_cons_zero, Option.some.injEq] at hi
        subst hi
        cases j with
        | zero =>
          simp only [List.get?_cons_zero, Option.some.injEq] at hj
          rw [← hj]
        | succ j =>
          simp only [List.get?_cons_succ] at hj
          exact (passRows_get_sum N S fuel _ _ (h + 1) n j s hj (by omega)).2.1
      | succ i =>
        cases j with
        | zero => omega
        | succ j =>
          simp only [List.get?_cons_succ] at hi hj
          exact ih _ _ (h + 1) n i j r s (by omega) hi hj (by omega)
    · rw [passRows_succ_nonhalt_fst N S fuel machineId t h n hs] at hi hj
      have hmod : (n + 1) % 2 ^ 32 = n + 1 := by omega
      rw [hmod] at hi hj
      cases i with
      | zero =>
        simp only [List.get?_cons_zero, Option.some.injEq] at hi
        subst hi
        cases j with
        | zero =>
          simp only [List.get?_cons_zero, Option.some.injEq] at hj
          rw [← hj]
        | succ j =>
          simp only [List.get?_cons_succ] at hj
          exact (passRows_get_sum N S fuel _ _ h (n + 1) j s hj (by omega)).2.1
      | succ i =>
        cases j with
        | zero => omega
        | succ j =>
          simp only [List.get?_cons_succ] at hi hj
          exact ih _ _ h (n + 1) i j r s (by omega) hi hj (by omega)

/-! ### Pass-level restatements -/

theorem testMachines_length (N S h n : ℕ) :
    (testMachines N S h n).1.length = kUniqueMachineCount N S :=
  passRows_length N S _ _ _ _ _

theorem testMachines_get_id (N S h n i : ℕ) (r : Row)
    (hget : (testMachines N S h n).1.get? i = some r) :
    r.stateCount = N ∧ r.symbolCount = S ∧ r.machineId = i ∧
    r.steps = run N S ((incrementTable (kOutputs N S))^[i]
      (List.replicate (kInputs N S) 0)) := by
  have hp := passRows_get_id N S (kUniqueMachineCount N S) 0
    (List.replicate (kInputs N S) 0) h n i r hget
  simpa using hp

theorem testMachines_get_sum (N S h n i : ℕ) (r : Row)
    (hget : (testMachines N S h n).1.get? i = some r)
    (hroom : h + n + i + 1 < 2 ^ 32) :
    r.haltingCount + r.nonHaltingCount = h + n + i + 1 ∧
    h ≤ r.haltingCount ∧ n ≤ r.nonHaltingCount :=
  passRows_get_sum N S (kUniqueMachineCount N S) 0
    (List.replicate (kInputs N S) 0) h n i r hget hroom

theorem testMachines_get_mod (N S h n i : ℕ) (r : Row)
    (hget : (testMachines N S h n).1.get? i = some r)
    (hh : h < 2 ^ 32) (hn : n < 2 ^ 32) :
    r.haltingCount < 2 ^ 32 ∧ r.nonHaltingCount < 2 ^ 32 ∧
    (r.haltingCount + r.nonHaltingCount) % 2 ^ 32 = (h + n + i + 1) % 2 ^ 32 :=
  passRows_get_mod N S (kUniqueMachineCount N S) 0
    (List.replicate (kInputs N S) 0) h n i r hget hh hn

theorem testMachines_final (N S h n : ℕ)
    (hroom : h + n + kUniqueMachineCount N S < 2 ^ 32) :
    (testMachines N S h n).2.1 + (testMachines N S h n).2.2 =
      h + n + kUniqueMachineCount N S ∧
    h ≤ (testMachines N S h n).2.1 ∧ n ≤ (testMachines N S h n).2.2 :=
  passRows_final N S (kUniqueMachineCount N S) 0
    (List.replicate (kInputs N S) 0) h n hroom

theorem testMachines_halt_le (N S h n i : ℕ) (r : Row)
    (hget : (testMachines N S h n).1.get? i = some r)
    (hroom : h + n + kUniqueMachineCount N S < 2 ^ 32) :
    r.haltingCount ≤ (testMachines N S h n).2.1 :=
  passRows_halt_le_final N S (kUniqueMachineCount N S) 0
    (List.replicate (kInputs N S) 0) h n i r hget hroom

theorem testMachines_halt_mono (N S h n i j : ℕ) (r s : Row) (hij : i ≤ j)
    (hi : (testMachines N S h n).1.get? i = some r)
    (hj : (testMachines N S h n).1.get? j = some s)
    (hroom : h + n + j + 1 < 2 ^ 32) :
    r.haltingCount ≤ s.haltingCount :=
  passRows_halt_mono N S (kUniqueMachineCount N S) 0
    (List.replicate (kInputs N S) 0) h n i j r s hij hi hj hroom

theorem testMachines_head (N S h n : ℕ) (hf : 0 < kUniqueMachineCount N S) :
    ((testMachines N S h n).1.head?.map fun r => (r.machineId, r.steps)) =
      some (0, run N S (List.replicate (kInputs N S) 0)) := by
  have hp : ((passRows N S (kUniqueMachineCount N S) 0
      (List.replicate (kInputs N S) 0) h n).1.head?.map
        fun r => (r.machineId, r.steps)) =
      some (0, run N S (List.replicate (kInputs N S) 0)) := by
    rcases hf0 : kUniqueMachineCount N S with _ | fuel
    · omega
    · by_cases hs : 0 < run N S (List.replicate (kInputs N S) 0)
      · rw [passRows_succ_halt_fst N S fuel 0 _ h n hs]
        rfl
      · rw [passRows_succ_nonhalt_fst N S fuel 0 _ h n hs]
        rfl
  exact hp

/-! ### Composition of the four passes -/

theorem pass1_eq : pass1 = testMachines 1 2 0 0 := rfl

theorem pass2_eq : pass2 = testMachines 2 2 pass1.2.1 pass1.2.2 := rfl

theorem pass3_eq : pass3 = testMachines 3 2 pass2.2.1 pass2.2.2 := rfl

theorem pass4_eq : pass4 = testMachines 4 2 pass3.2.1 pass3.2.2 := rfl

theorem programRows_eq :
    programRows = pass1.1 ++ (pass2.1 ++ (pass3.1 ++ pass4.1)) := rfl

theorem pass1_length : pass1.1.length = kUniqueMachineCount 1 2 := by
  rw [pass1_eq]
  exact testMachines_length 1 2 0 0

theorem pass2_length : pass2.1.length = kUniqueMachineCount 2 2 := by
  rw [pass2_eq]
  exact testMachines_length 2 2 pass1.2.1 pass1.2.2

theorem pass3_length : pass3.1.length = kUniqueMachineCount 3 2 := by
  rw [pass3_eq]
  exact testMachines_length 3 2 pass2.2.1 pass2.2.2

theorem pass4_length : pass4.1.length = kUniqueMachineCount 4 2 := by
  rw [pass4_eq]
  exact testMachines_length 4 2 pass3.2.1 pass3.2.2

theorem count1_eq : kUniqueMachineCount 1 2 = 64 := by decide

theorem count2_eq : kUniqueMachineCount 2 2 = 20736 := by decide

theorem count3_eq : kUniqueMachineCount 3 2 = 16777216 := by decide

theorem pass1_final : pass1.2.1 + pass1.2.2 = 0 + 0 + kUniqueMachineCount 1 2 := by
  rw [pass1_eq]
  exact (testMachines_final 1 2 0 0 (by decide)).1

theorem pass2_final : pass2.2.1 + pass2.2.2 =
    pass1.2.1 + pass1.2.2 + kUniqueMachineCount 2 2 := by
  rw [pass2_eq]
  refine (testMachines_final 2 2 pass1.2.1 pass1.2.2 ?_).1
  have hf1 := pass1_final
  have hc1 := count1_eq
  have hc2 := count2_eq
  omega

theorem pass3_final : pass3.2.1 + pass3.2.2 =
    pass2.2.1 + pass2.2.2 + kUniqueMachineCount 3 2 := by
  rw [pass3_eq]
  refine (testMachines_final 3 2 pass2.2.1 pass2.2.2 ?_).1
  have hf1 := pass1_final
  have hf2 := pass2_final
  have hc1 := count1_eq
  have hc2 := count2_eq
  have hc3 := count3_eq
  omega

theorem pass_entry_chain :
    pass1.2.1 ≤ pass2.2.1 ∧ pass2.2.1 ≤ pass3.2.1 := by
  have hf1 := pass1_final
  have hf2 := pass2_final
  have hc1 := count1_eq
  have hc2 := count2_eq
  have hc3 := count3_eq
  constructor
  · rw [pass2_eq]
    refine (testMachines_final 2 2 pass1.2.1 pass1.2.2 ?_).2.1
    omega
  · rw [pass3_eq]
    refine (testMachines_final 3 2 pass2.2.1 pass2.2.2 ?_).2.1
    omega

theorem programRows_length :
    programRows.length = kUniqueMachineCount 1 2 + (kUniqueMachineCount 2 2 +
      (kUniqueMachineCount 3 2 + kUniqueMachineCount 4 2)) := by
  rw [programRows_eq]
  simp only [List.length_append]
  rw [pass1_length, pass2_length, pass3_length, pass4_length]

theorem programRows_sum (i : ℕ) (r : Row)
    (hget : programRows.get? i = some r) (hi32 : i + 1 < 2 ^ 32) :
    r.haltingCount + r.nonHaltingCount = i + 1 := by
  rw [programRows_eq] at hget
  have hl1 := pass1_length
  have hl2 := pass2_length
  have hl3 := pass3_length
  have hc1 := count1_eq
  have hc2 := count2_eq
  have hc3 := count3_eq
  have hf1 := pass1_final
  have hf2 := pass2_final
  have hf3 := pass3_final
  by_cases h1 : i < pass1.1.length
  · rw [List.get?_append h1] at hget
    rw [pass1_eq] at hget
    have := (testMachines_get_sum 1 2 0 0 i r hget (by omega)).1
    omega
  · rw [List.get?_append_right (by omega)] at hget
    by_cases h2 : i - pass1.1.length < pass2.1.length
    · rw [List.get?_append h2] at hget
      rw [pass2_eq] at hget
      have := (testMachines_get_sum 2 2 pass1.2.1 pass1.2.2 _ r hget
        (by omega)).1
      omega
    · rw [List.get?_append_right (by omega)] at hget
      by_cases h3 : i - pass1.1.length - pass2.1.length < pass3.1.length
      · rw [List.get?_append h3] at hget
        rw [pass3_eq] at hget
        have := (testMachines_get_sum 3 2 pass2.2.1 pass2.2.2 _ r hget
          (by omega)).1
        omega
      · rw [List.get?_append_right (by omega)] at hget
        rw [pass4_eq] at hget
        have := (testMachines_get_sum 4 2 pass3.2.1 pass3.2.2 _ r hget
          (by omega)).1
        omega

theorem programRows_mod (i : ℕ) (r : Row)
    (hget : programRows.get? i = some r) :
    r.haltingCount < 2 ^ 32 ∧ r.nonHaltingCount < 2 ^ 32 ∧
    (r.haltingCount + r.nonHaltingCount) % 2 ^ 32 = (i + 1) % 2 ^ 32 := by
  rw [programRows_eq] at hget
  have hl1 := pass1_length
  have hl2 := pass2_length
  have hl3 := pass3_length
  have hc1 := count1_eq
  have hc2 := count2_eq
  have hc3 := count3_eq
  have hf1 := pass1_final
  have hf2 := pass2_final
  have hf3 := pass3_final
  by_cases h1 : i < pass1.1.length
  · rw [List.get?_append h1] at hget
    rw [pass1_eq] at hget
    have := (testMachines_get_sum 1 2 0 0 i r hget (by omega)).1
    omega
  · rw [List.get?_append_right (by omega)] at hget
    by_cases h2 : i - pass1.1.length < pass2.1.length
    · rw [List.get?_append h2] at hget
      rw [pass2_eq] at hget
      have := (testMachines_get_sum 2 2 pass1.2.1 pass1.2.2 _ r hget
        (by omega)).1
      omega
    · rw [List.get?_append_right (by omega)] at hget
      by_cases h3 : i - pass1.1.length - pass2.1.length < pass3.1.length
      · rw [List.get?_append h3] at hget
        rw [pass3_eq] at hget
        have := (testMachines_get_sum 3 2 pass2.2.1 pass2.2.2 _ r hget
          (by omega)).1
        omega
      · rw [List.get?_append_right (by omega)] at hget
        rw [pass4_eq] at hget
        have hmod := testMachines_get_mod 4 2 pass3.2.1 pass3.2.2 _ r hget
          (by omega) (by omega)
        obtain ⟨hb1, hb2, hb3⟩ := hmod
        refine ⟨hb1, hb2, ?_⟩
        rw [hb3]
        omega

theorem programRows_halt_mono_below (i j : ℕ) (r s : Row)
    (hij : i ≤ j) (hj31 : j + 1 < 2 ^ 31)
    (hi : programRows.get? i = some r) (hj : programRows.get? j = some s) :
    r.haltingCount ≤ s.haltingCount := by
  rw [programRows_eq] at hi hj
  have hl1 := pass1_length
  have hl2 := pass2_length
  have hl3 := pass3_length
  have hc1 := count1_eq
  have hc2 := count2_eq
  have hc3 := count3_eq
  have hf1 := pass1_final
  have hf2 := pass2_final
  have hf3 := pass3_final
  have hch := pass_entry_chain
  have hup1 : ∀ k t, pass1.1.get? k = some t → t.haltingCount ≤ pass1.2.1 := by
    intro k t hk
    rw [pass1_eq] at hk ⊢
    exact testMachines_halt_le 1 2 0 0 k t hk (by omega)
  have hup2 : ∀ k t, pass2.1.get? k = some t → t.haltingCount ≤ pass2.2.1 := by
    intro k t hk
    rw [pass2_eq] at hk ⊢
    exact testMachines_halt_le 2 2 pass1.2.1 pass1.2.2 k t hk (by omega)
  have hup3 : ∀ k t, pass3.1.get? k = some t → t.haltingCount ≤ pass3.2.1 := by
    intro k t hk
    rw [pass3_eq] at hk ⊢
    exact testMachines_halt_le 3 2 pass2.2.1 pass2.2.2 k t hk (by omega)
  have hlow2 : ∀ k t, k < pass2.1.length → pass2.1.get? k = some t →
      pass1.2.1 ≤ t.haltingCount := by
    intro k t hk hkt
    rw [pass2_eq] at hkt
    exact (testMachines_get_sum 2 2 pass1.2.1 pass1.2.2 k t hkt
      (by omega)).2.1
  have hlow3 : ∀ k t, k < pass3.1.length → pass3.1.get? k = some t →
      pass2.2.1 ≤ t.haltingCount := by
    intro k t hk hkt
    rw [pass3_eq] at hkt
    exact (testMachines_get_sum 3 2 pass2.2.1 pass2.2.2 k t hkt
      (by omega)).2.1
  have hlow4 : ∀ k t, pass1.1.length + pass2.1.length + pass3.1.length +
        k + 1 < 2 ^ 31 → pass4.1.get? k = some t →
      pass3.2.1 ≤ t.haltingCount := by
    intro k t hk hkt
    rw [pass4_eq] at hkt
    exact (testMachines_get_sum 4 2 pass3.2.1 pass3.2.2 k t hkt
      (by omega)).2.1
  by_cases hj1 : j < pass1.1.length
  · have hi1 : i < pass1.1.length := by omega
    rw [List.get?_append hi1] at hi
    rw [List.get?_append hj1] at hj
    rw [pass1_eq] at hi hj
    exact testMachines_halt_mono 1 2 0 0 i j r s hij hi hj (by omega)
  · rw [List.get?_append_right (by omega)] at hj
    by_cases hj2 : j - pass1.1.length < pass2.1.length
    · rw [List.get?_append hj2] at hj
      by_cases hi1 : i < pass1.1.length
      · rw [List.get?_append hi1] at hi
        exact le_trans (hup1 i r hi) (hlow2 _ s hj2 hj)
      · rw [List.get?_append_right (by omega)] at hi
        rw [List.get?_append (by omega)] at hi
        rw [pass2_eq] at hi hj
        exact testMachines_halt_mono 2 2 pass1.2.1 pass1.2.2 _ _ r s
          (by omega) hi hj (by omega)
    · rw [List.get?_append_right (by omega)] at hj
      by_cases hj3 : j - pass1.1.length - pass2.1.length < pass3.1.length
      · rw [List.get?_append hj3] at hj
        by_cases hi1 : i < pass1.1.length
        · rw [List.get?_append hi1] at hi
          exact le_trans (hup1 i r hi) (le_trans hch.1 (hlow3 _ s hj3 hj))
        · rw [List.get?_append_right (by omega)] at hi
          by_cases hi2 : i - pass1.1.length < pass2.1.length
          · rw [List.get?_append hi2] at hi
            exact le_trans (hup2 _ r hi) (hlow3 _ s hj3 hj)
          · rw [List.get?_append_right (by omega)] at hi
            rw [List.get?_append (by omega)] at hi
            rw [pass3_eq] at hi hj
            exact testMachines_halt_mono 3 2 pass2.2.1 pass2.2.2 _ _ r s
              (by omega) hi hj (by omega)
      · rw [List.get?_append_right (by omega)] at hj
        have hjlow : pass3.2.1 ≤ s.haltingCount :=
          hlow4 _ s (by omega) hj
        by_cases hi1 : i < pass1.1.length
        · rw [List.get?_append hi1] at hi
          exact le_trans (hup1 i r hi)
            (le_trans hch.1 (le_trans hch.2 hjlow))
        · rw [List.get?_append_right (by omega)] at hi
          by_cases hi2 : i - pass1.1.length < pass2.1.length
          · rw [List.get?_append hi2] at hi
            exact le_trans (hup2 _ r hi) (le_trans hch.2 hjlow)
          · rw [List.get?_append_right (by omega)] at hi
            by_cases hi3 : i - pass1.1.length - pass2.1.length < pass3.1.length
            · rw [List.get?_append hi3] at hi
              exact le_trans (hup3 _ r hi) hjlow
            · rw [List.get?_append_right (by omega)] at hi
              rw [pass4_eq] at hi hj
              exact testMachines_halt_mono 4 2 pass3.2.1 pass3.2.2 _ _ r s
                (by omega) hi hj (by omega)

theorem intView_sum_nonpos (h n : ℕ) (hh : h < 2 ^ 32) (hn : n < 2 ^ 32)
    (hmod : (h + n) % 2 ^ 32 = 0) : intView h + intView n ≤ 0 := by
  simp only [intView]
  by_cases h1 : h < 2 ^ 31
  · by_cases h2 : n < 2 ^ 31
    · rw [if_pos h1, if_pos h2]
      omega
    · rw [if_pos h1, if_neg h2]
      omega
  · by_cases h2 : n < 2 ^ 31
    · rw [if_neg h1, if_pos h2]
      omega
    · rw [if_neg h1, if_neg h2]
      omega

/-! ### Claim theorems C3, C4, C5, C7, C8, C9, C10 -/

/-- C3: for each `(N, S)` pass, at every iteration the transition table passed
to the simulator is exactly the little-endian base-`kOutputs` digit expansion
of the iteration index: the table after `machineId` odometer increments of the
all-zero table equals `natToDigits kOutputs kInputs machineId`, the iterated
tables are pairwise distinct (each table simulated exactly once, in odometer
order from the all-zero table), the value-of-digits round trip holds, and the
row emitted at index `machineId` carries that id and the result of running the
corresponding table. -/
theorem odometer_enumeration (N S : ℕ) (hS : 1 ≤ S)
    (h256 : kOutputs N S ≤ 256) :
    (∀ i, i < kUniqueMachineCount N S →
      (incrementTable (kOutputs N S))^[i] (List.replicate (kInputs N S) 0) =
        natToDigits (kOutputs N S) (kInputs N S) i) ∧
    (∀ i j, i < kUniqueMachineCount N S → j < kUniqueMachineCount N S →
      (incrementTable (kOutputs N S))^[i] (List.replicate (kInputs N S) 0) =
        (incrementTable (kOutputs N S))^[j] (List.replicate (kInputs N S) 0) →
      i = j) ∧
    (∀ i, i < kUniqueMachineCount N S →
      digitsValue (kOutputs N S)
        (natToDigits (kOutputs N S) (kInputs N S) i) = i) ∧
    (∀ h n i r, (testMachines N S h n).1.get? i = some r →
      r.machineId = i ∧
      r.steps = run N S ((incrementTable (kOutputs N S))^[i]
        (List.replicate (kInputs N S) 0))) := by
  have h2 : 2 ≤ kOutputs N S := by
    unfold kOutputs kDirectionCount
    calc 2 = 1 * 2 * 1 := by norm_num
      _ ≤ S * 2 * (N + 1) :=
        Nat.mul_le_mul (Nat.mul_le_mul hS (le_refl 2)) (by omega)
  have hiter : ∀ i, i < kUniqueMachineCount N S →
      (incrementTable (kOutputs N S))^[i] (List.replicate (kInputs N S) 0) =
        natToDigits (kOutputs N S) (kInputs N S) i := by
    intro i hi
    exact iterate_incrementTable (kOutputs N S) (kInputs N S) h2 h256 i hi
  have hval : ∀ i, i < kUniqueMachineCount N S →
      digitsValue (kOutputs N S)
        (natToDigits (kOutputs N S) (kInputs N S) i) = i := by
    intro i hi
    exact digitsValue_natToDigits (kOutputs N S) h2 (kInputs N S) i hi
  refine ⟨hiter, ?_, hval, ?_⟩
  · intro i j hi hj heq
    have hvi := hval i hi
    have hvj := hval j hj
    rw [← hiter i hi, heq, hiter j hj] at hvi
    omega
  · intro h n i r hget
    have := testMachines_get_id N S h n i r hget
    exact ⟨this.2.2.1, this.2.2.2⟩

/-- Witness for `odometer_enumeration` at `N = S = 2`, iteration 5. -/
theorem odometer_enumeration_w :
    (incrementTable (kOutputs 2 2))^[5] (List.replicate (kInputs 2 2) 0) =
      natToDigits (kOutputs 2 2) (kInputs 2 2) 5 :=
  (odometer_enumeration 2 2 (by decide) (by decide)).1 5 (by decide)

/-- C4 counterexample: it is not the case that after every data row the
program writes, `halting + non_halting = machine_id + 1`: the counters are
shared across the four passes, so the first row of the `(N = 2, S = 2)` pass
(the 65th row overall, carrying `machine_id = 0`) has
`halting + non_halting = 65`, not 1. -/
theorem counters_per_pass_cx :
    ¬ (∀ i r, programRows.get? i = some r →
        r.haltingCount + r.nonHaltingCount = r.machineId + 1) := by
  intro hcl
  have h64 : programRows.get? 64 = some ⟨2, 2, 0, -1, 32, 33⟩ := by decide
  have := hcl 64 ⟨2, 2, 0, -1, 32, 33⟩ h64
  simp at this

/-- C4 amended: for every data row the program writes whose 0-based global
index `i` (counted across all four passes) satisfies `i + 1 < 2^31` — i.e.
before the shared 32-bit `int` counters can overflow — both the stored
counters and their signed `int` values satisfy
`halting + non_halting = i + 1`, equivalently `h0 + n0 + machine_id + 1`
where `h0, n0` are the counter values at the row's pass entry (the plain
`machine_id + 1` form holds only inside the first pass), and the running
halting count is monotonically non-decreasing across such rows; for every
row without restriction the stored counter patterns satisfy the congruence
`(halting + non_halting) % 2^32 = (i + 1) % 2^32`. -/
theorem counters_global :
    (∀ i r, programRows.get? i = some r → i + 1 < 2 ^ 31 →
      r.haltingCount + r.nonHaltingCount = i + 1 ∧
      intView r.haltingCount + intView r.nonHaltingCount = (i : ℤ) + 1) ∧
    (∀ i j r s, i ≤ j → j + 1 < 2 ^ 31 →
      programRows.get? i = some r → programRows.get? j = some s →
      r.haltingCount ≤ s.haltingCount) ∧
    (∀ i r, programRows.get? i = some r →
      (r.haltingCount + r.nonHaltingCount) % 2 ^ 32 = (i + 1) % 2 ^ 32) := by
  refine ⟨?_, ?_, ?_⟩
  · intro i r hget hi31
    have hsum := programRows_sum i r hget (by omega)
    have hhb : r.haltingCount < 2 ^ 31 := by omega
    have hnb : r.nonHaltingCount < 2 ^ 31 := by omega
    refine ⟨hsum, ?_⟩
    simp only [intView, if_pos hhb, if_pos hnb]
    omega
  · intro i j r s hij hj31 hi hj
    exact programRows_halt_mono_below i j r s hij hj31 hi hj
  · intro i r hget
    exact (programRows_mod i r hget).2.2

/-- Witness for `counters_global` at the first row of the output. -/
theorem counters_global_w :
    (⟨1, 2, 0, -1, 0, 1⟩ : Row).haltingCount +
        (⟨1, 2, 0, -1, 0, 1⟩ : Row).nonHaltingCount = 0 + 1 ∧
      intView (⟨1, 2, 0, -1, 0, 1⟩ : Row).haltingCount +
        intView (⟨1, 2, 0, -1, 0, 1⟩ : Row).nonHaltingCount = ((0 : ℕ) : ℤ) + 1 :=
  counters_global.1 0 ⟨1, 2, 0, -1, 0, 1⟩ (by decide) (by decide)

/-- C5: `main` never inspects the stream state after
`resultsFile.open("machine_results.csv")`; when the open fails the writes are
silently discarded and the process still ends with `return 0` and no
diagnostic — contradicting the spec, which requires a non-zero exit code and
a diagnostic. -/
theorem open_failure_behavior :
    (mainResult false).exitCode = 0 ∧
      (mainResult false).wroteDiagnostic = false := by
  decide

/-- C7: the transition table `[7, 6, 2, 11]` encodes the classical 2-state
2-symbol busy-beaver champion — on `(A,0)` write 1, move right, go to `B`; on
`(A,1)` write 1, move left, go to `B`; on `(B,0)` write 1, move left, go to
`A`; on `(B,1)` write 1, move right, halt — and `run` returns exactly 6 on
it. -/
theorem busy_beaver_champion :
    run 2 2 [7, 6, 2, 11] = 6 ∧
    specDirBit 7 = 1 ∧ specWriteSym 2 7 = 1 ∧ specNextState 2 7 = 1 ∧
    specDirBit 6 = 0 ∧ specWriteSym 2 6 = 1 ∧ specNextState 2 6 = 1 ∧
    specDirBit 2 = 0 ∧ specWriteSym 2 2 = 1 ∧ specNextState 2 2 = 0 ∧
    specDirBit 11 = 1 ∧ specWriteSym 2 11 = 1 ∧
    specNextState 2 11 = kHaltState 2 := by
  decide

/-- C8: for every pass with `N ∈ {1, 2, 3, 4}` and `S = 2`, whatever the
incoming counter values, the first machine simulated is `machine_id 0` with
the all-zero transition table and yields `steps = -1`; output 0 decodes to
write 0, move left (direction bit 0), next state 0. -/
theorem zero_table_non_halting : ∀ h n : ℕ,
    (((testMachines 1 2 h n).1.head?.map fun r => (r.machineId, r.steps)) =
      some (0, -1)) ∧
    (((testMachines 2 2 h n).1.head?.map fun r => (r.machineId, r.steps)) =
      some (0, -1)) ∧
    (((testMachines 3 2 h n).1.head?.map fun r => (r.machineId, r.steps)) =
      some (0, -1)) ∧
    (((testMachines 4 2 h n).1.head?.map fun r => (r.machineId, r.steps)) =
      some (0, -1)) ∧
    specDirBit 0 = 0 ∧ specWriteSym 2 0 = 0 ∧ specNextState 2 0 = 0 := by
  intro h n
  refine ⟨?_, ?_, ?_, ?_, by decide, by decide, by decide⟩
  · rw [testMachines_head 1 2 h n (by decide)]
    decide
  · rw [testMachines_head 2 2 h n (by decide)]
    decide
  · rw [testMachines_head 3 2 h n (by decide)]
    decide
  · rw [testMachines_head 4 2 h n (by decide)]
    decide

/-- C9: the machine count (modelled from the spec as the exact power, since
the external `gcem.hpp` is not among the sources) equals
`kOutputs ^ kInputs` for every pass the driver runs, and the `(N=1, S=2)`
pass emits exactly 64 data rows while the `(N=2, S=2)` pass emits exactly
20736, whatever the incoming counter values. -/
theorem machine_count_exact :
    kUniqueMachineCount 1 2 = kOutputs 1 2 ^ kInputs 1 2 ∧
    kUniqueMachineCount 2 2 = kOutputs 2 2 ^ kInputs 2 2 ∧
    kUniqueMachineCount 3 2 = kOutputs 3 2 ^ kInputs 3 2 ∧
    kUniqueMachineCount 4 2 = kOutputs 4 2 ^ kInputs 4 2 ∧
    (∀ h n, (testMachines 1 2 h n).1.length = 64) ∧
    (∀ h n, (testMachines 2 2 h n).1.length = 20736) := by
  refine ⟨rfl, rfl, rfl, rfl, ?_, ?_⟩
  · intro h n
    rw [testMachines_length 1 2 h n]
    decide
  · intro h n
    rw [testMachines_length 2 2 h n]
    decide

/-- C10 counterexample: the divisor is not at least 1 at every probability
computation. The driver emits about 2.56 × 10^10 rows, so the shared 32-bit
counters overflow; at the row with 0-based global index `2^32 - 1`
(4294967295, inside the fourth pass) the stored counter patterns sum to
0 mod `2^32`, hence the signed `int` divisor at that row is at most 0. The
row exists because the index is below the total row count; its counter
congruence follows from the per-row invariant, with no evaluation of the
fourth pass. -/
theorem halting_divisor_cx :
    ∃ r, programRows.get? 4294967295 = some r ∧
      intView r.haltingCount + intView r.nonHaltingCount ≤ 0 := by
  have hlen := programRows_length
  have hlt : 4294967295 < programRows.length := by
    rw [hlen]
    decide
  obtain ⟨r, hr⟩ : ∃ r, programRows.get? 4294967295 = some r := by
    rcases hg : programRows.get? 4294967295 with _ | r
    · rw [List.get?_eq_none] at hg
      omega
    · exact ⟨r, rfl⟩
  obtain ⟨hh, hn, hmod⟩ := programRows_mod 4294967295 r hr
  exact ⟨r, hr, intView_sum_nonpos _ _ hh hn (by omega)⟩

/-- C10 amended: for every data row whose 0-based global index `i` satisfies
`i + 1 < 2^31` — before the shared 32-bit `int` counters can overflow, which
covers the complete `(N=1)`, `(N=2)` and `(N=3)` passes and the first
≈2.1 × 10^9 rows of the `(N=4)` pass — the divisor
`haltingCount + nonHaltingCount` equals `i + 1`, both for the stored
patterns and for their signed `int` values, and in particular is at least 1,
so those divisions are not by zero. Past that point the guarantee fails
(see the counterexample at row `2^32 - 1`), and the final summary occurs
only after all ≈2.56 × 10^10 increments. -/
theorem halting_divisor_pos :
    ∀ i r, programRows.get? i = some r → i + 1 < 2 ^ 31 →
      1 ≤ r.haltingCount + r.nonHaltingCount ∧
      1 ≤ intView r.haltingCount + intView r.nonHaltingCount := by
  intro i r hget hi31
  have hsum := programRows_sum i r hget (by omega)
  have hhb : r.haltingCount < 2 ^ 31 := by omega
  have hnb : r.nonHaltingCount < 2 ^ 31 := by omega
  constructor
  · omega
  · simp only [intView, if_pos hhb, if_pos hnb]
    omega

/-- Witness for `halting_divisor_pos` at the first row of the output. -/
theorem halting_divisor_pos_w :
    1 ≤ (⟨1, 2, 0, -1, 0, 1⟩ : Row).haltingCount +
        (⟨1, 2, 0, -1, 0, 1⟩ : Row).nonHaltingCount ∧
      1 ≤ intView (⟨1, 2, 0, -1, 0, 1⟩ : Row).haltingCount +
        intView (⟨1, 2, 0, -1, 0, 1⟩ : Row).nonHaltingCount :=
  halting_divisor_pos 0 ⟨1, 2, 0, -1, 0, 1⟩ (by decide) (by decide)

/-- Witness for `zero_table_non_halting` with zero incoming counters. -/
theorem zero_table_non_halting_w :
    ((testMachines 1 2 0 0).1.head?.map fun r => (r.machineId, r.steps)) =
      some (0, -1) :=
  (zero_table_non_halting 0 0).1

/-- Witness for `machine_count_exact` on the first pass. -/
theorem machine_count_exact_w : (testMachines 1 2 0 0).1.length = 64 :=
  machine_count_exact.2.2.2.2.1 0 0

end BBSim
